import Mathlib

/-!
Verification of the HAMMER transaction / identifier-allocation core
(`src/dfly/vfs/hammer/hammer_transaction.c`).

The C code is shallowly embedded: the mount-wide allocator state and the
per-directory object-id cache become Lean structures, every C function
becomes a Lean function on those structures, and `panic`/`KKASSERT`
failure becomes `Option.none`.  Machine integers are modelled as `Nat`;
the allocator's own panic guard (`tid >= 0xFFFFFFFFFF000000ULL`) keeps
every value far below `2 ^ 64`, so 64-bit wraparound is unreachable and
is not modelled.
-/

namespace HammerTrans

/-- HAMMER_MAX_MASTERS, the multi-master stride.  The source states the
stride explicitly: "the returned base will be aligned to a 16-count plus
the master id (0-15)" (hammer_transaction.c, comment above
hammer_alloc_tid). -/
def HAMMER_MAX_MASTERS : Nat := 16

/-- The reserved upper bound of the TID space; reaching it is fatal
(hammer_transaction.c line 164: `if (tid >= 0xFFFFFFFFFF000000ULL) panic(...)`). -/
def TID_LIMIT : Nat := 0xFFFFFFFFFF000000

/-- One OID cache entry, `struct hammer_objid_cache`: a bulk-reserved
block of object ids.  `next_tid` is the next id to hand out, `count` the
number of ids remaining, `dip` the owning directory (modelled by a
directory number; `none` = unowned).  The C `int count` is modelled as
`Nat`; entries always carry `count >= 1` (created with OBJID_CACHE_BULK
and destroyed when the count reaches 0), which the theorems track as
hypotheses. -/
structure HammerObjidCache where
  next_tid : Nat
  count : Nat
  dip : Option Nat
  deriving Repr, DecidableEq

/-- The mount-wide allocator state, the relevant fields of
`struct hammer_mount`: `master_id` (negative = single-master),
`next_tid`, and the OID cache pool `objid_cache_list` (head of the list
= `TAILQ_FIRST`) with its element counter `objid_cache_count`.

Directory back-pointers (`dip->objid_cache`) are represented implicitly:
a directory `d` is bound to the unique pool entry whose `dip` field is
`some d` (see `dirObjidCache`).  The C code keeps the two pointers of
each binding consistent at every step, so this derived representation
agrees with it on all serial executions. -/
structure HammerMount where
  master_id : Int
  next_tid : Nat
  objid_cache_list : List HammerObjidCache
  objid_cache_count : Nat
  deriving Repr, DecidableEq

/-- Compact constructor for mount states, used in concrete scenarios. -/
def mkMount (m : Int) (nt : Nat) (pool : List HammerObjidCache) (cnt : Nat) : HammerMount :=
  { master_id := m, next_tid := nt, objid_cache_list := pool, objid_cache_count := cnt }

/-- OBJID_CACHE_SIZE and OBJID_CACHE_BULK are compile-time constants of
the mount configuration (hammer.h; 128 and 100000 in the reference
tree).  They are kept parametric so that the specified small-parameter
scenarios (pool capacity 1, BULK 4) are directly expressible. -/
structure ObjidCfg where
  size : Nat
  count_bulk : Nat
  deriving Repr, DecidableEq

/-- hammer_alloc_tid (hammer_transaction.c lines 150-169).  Allocates
`count` TID slots and returns the base.  Single-master
(`master_id < 0`): `tid = next_tid + 1; next_tid = tid + count`.
Multi-master: `tid = (next_tid + HAMMER_MAX_MASTERS) &
~(HAMMER_MAX_MASTERS - 1)` - the masking clears the low four bits,
i.e. rounds `next_tid + 16` down to a multiple of 16, written here as
division and multiplication - then `next_tid = tid + count * 16` and
`tid |= master_id`.  The panic on `tid >= TID_LIMIT` is modelled as
`none`. -/
def hammer_alloc_tid (hmp : HammerMount) (count : Nat) : Option (Nat × HammerMount) :=
  if hmp.master_id < 0 then
    let tid := hmp.next_tid + 1
    let hmp1 := { hmp with next_tid := tid + count }
    if TID_LIMIT ≤ tid then none else some (tid, hmp1)
  else
    let tid := (hmp.next_tid + HAMMER_MAX_MASTERS) / HAMMER_MAX_MASTERS * HAMMER_MAX_MASTERS
    let hmp1 := { hmp with next_tid := tid + count * HAMMER_MAX_MASTERS }
    let tid := tid ||| hmp.master_id.toNat
    if TID_LIMIT ≤ tid then none else some (tid, hmp1)

/-- The id `hammer_alloc_tid` is about to return (the value the C code
has computed in `tid` when it reaches the panic check). -/
def rawTid (hmp : HammerMount) (count : Nat) : Nat :=
  if hmp.master_id < 0 then
    hmp.next_tid + 1
  else
    ((hmp.next_tid + HAMMER_MAX_MASTERS) / HAMMER_MAX_MASTERS * HAMMER_MAX_MASTERS)
      ||| hmp.master_id.toNat

/-- Serial runs of `hammer_alloc_tid`: apply it once per requested count,
collecting the returned bases; `none` as soon as one call panics. -/
def runTid : HammerMount → List Nat → Option (List Nat × HammerMount)
  | hmp, [] => some ([], hmp)
  | hmp, c :: cs =>
    match hammer_alloc_tid hmp c with
    | none => none
    | some (t, h) =>
      match runTid h cs with
      | none => none
      | some (ts, h2) => some (t :: ts, h2)

/-- The multi-master base formula exactly as the specification words it:
`base = round_up(next_tid, MAX_MASTERS)` with `round_up` the usual
rounding up to the nearest multiple (identity on exact multiples),
then `next_tid = base + count * MAX_MASTERS` and the call returns
`base | master_id`. -/
def roundUpSpec (x m : Nat) : Nat := (x + m - 1) / m * m

/-- Return value and successor `next_tid` that the specification's
multi-master formula predicts for one `allocate(count)` call. -/
def allocTidSpecMulti (hmp : HammerMount) (count : Nat) : Nat × Nat :=
  let base := roundUpSpec hmp.next_tid HAMMER_MAX_MASTERS
  (base ||| hmp.master_id.toNat, base + count * HAMMER_MAX_MASTERS)

/-! Basic characterisations of `hammer_alloc_tid`. -/

theorem alloc_tid_single (hmp : HammerMount) (count t : Nat) (h1 : HammerMount)
    (hm : hmp.master_id < 0) (h : hammer_alloc_tid hmp count = some (t, h1)) :
    t = hmp.next_tid + 1 ∧ h1.next_tid = t + count ∧ t < TID_LIMIT ∧
      h1.master_id = hmp.master_id ∧
      h1.objid_cache_list = hmp.objid_cache_list ∧
      h1.objid_cache_count = hmp.objid_cache_count := by
  unfold hammer_alloc_tid at h
  rw [if_pos hm] at h
  by_cases hlim : TID_LIMIT ≤ hmp.next_tid + 1
  · simp [hlim] at h
  · simp only [if_neg hlim, Option.some.injEq, Prod.mk.injEq] at h
    obtain ⟨rfl, rfl⟩ := h
    exact ⟨rfl, rfl, Nat.lt_of_not_le hlim, rfl, rfl, rfl⟩

theorem alloc_tid_multi (hmp : HammerMount) (count t : Nat) (h1 : HammerMount)
    (hm : ¬ hmp.master_id < 0) (h : hammer_alloc_tid hmp count = some (t, h1)) :
    t = ((hmp.next_tid + 16) / 16 * 16) ||| hmp.master_id.toNat ∧
      h1.next_tid = (hmp.next_tid + 16) / 16 * 16 + count * 16 ∧ t < TID_LIMIT ∧
      h1.master_id = hmp.master_id ∧
      h1.objid_cache_list = hmp.objid_cache_list ∧
      h1.objid_cache_count = hmp.objid_cache_count := by
  unfold hammer_alloc_tid at h
  rw [if_neg hm] at h
  by_cases hlim :
      TID_LIMIT ≤ ((hmp.next_tid + HAMMER_MAX_MASTERS) / HAMMER_MAX_MASTERS *
        HAMMER_MAX_MASTERS) ||| hmp.master_id.toNat
  · simp [hlim] at h
  · simp only [if_neg hlim, Option.some.injEq, Prod.mk.injEq] at h
    obtain ⟨rfl, rfl⟩ := h
    exact ⟨rfl, rfl, Nat.lt_of_not_le hlim, rfl, rfl, rfl⟩

/-- Bitwise-or of numbers with disjoint binary support is addition: if
`a` is a multiple of `2 ^ n` and `b < 2 ^ n` then `a ||| b = a + b`. -/
theorem lor_eq_add_of_mod_two_pow (n : Nat) :
    ∀ a b : Nat, a % 2 ^ n = 0 → b < 2 ^ n → a ||| b = a + b := by
  induction n with
  | zero =>
    intro a b _ hb
    interval_cases b
    simp
  | succ n ih =>
    intro a b ha hb
    have hpow : (2 : Nat) ^ (n + 1) = 2 * 2 ^ n := by ring
    rw [hpow] at ha hb
    obtain ⟨k, rfl⟩ : ∃ k, a = 2 * (2 ^ n * k) := by
      obtain ⟨k, hk⟩ := Nat.dvd_of_mod_eq_zero ha
      exact ⟨k, by rw [hk]; ring⟩
    have ha2 : 2 * (2 ^ n * k) % 2 = 0 := Nat.mul_mod_right 2 _
    have hadiv : 2 * (2 ^ n * k) / 2 % 2 ^ n = 0 := by
      rw [Nat.mul_div_cancel_left _ (by norm_num : 0 < 2)]
      exact Nat.mul_mod_right _ _
    have hbdiv : b / 2 < 2 ^ n := by
      rw [Nat.div_lt_iff_lt_mul (by norm_num : 0 < 2)]
      omega
    set a := 2 * (2 ^ n * k) with hadef
    have hdiv : (a ||| b) / 2 = a / 2 + b / 2 := by
      rw [Nat.or_div_two]
      exact ih (a / 2) (b / 2) hadiv hbdiv
    have hmod : (a ||| b) % 2 = b % 2 := by
      rcases Nat.mod_two_eq_zero_or_one b with hb2 | hb2
      · rcases Nat.mod_two_eq_zero_or_one (a ||| b) with h | h
        · omega
        · rw [Nat.or_mod_two_eq_one] at h
          omega
      · have : (a ||| b) % 2 = 1 := Nat.or_mod_two_eq_one.mpr (Or.inr hb2)
        omega
    have e1 : a ||| b = 2 * ((a ||| b) / 2) + (a ||| b) % 2 := by omega
    rw [e1, hdiv, hmod]
    omega

/-- For a master id below 16 or-ed onto a multiple of 16, the or is an
addition; in particular the base is unchanged up to that small offset. -/
theorem lor_master (B m : Nat) (hB : B % 16 = 0) (hm : m < 16) : B ||| m = B + m := by
  have h16 : (2 : Nat) ^ 4 = 16 := by norm_num
  apply lor_eq_add_of_mod_two_pow 4 <;> omega

theorem rounded_base_mod (x : Nat) : (x + 16) / 16 * 16 % 16 = 0 :=
  Nat.mul_mod_left _ _

theorem rounded_base_gt (x : Nat) : x < (x + 16) / 16 * 16 := by
  have h := Nat.div_add_mod (x + 16) 16
  have h2 : (x + 16) % 16 < 16 := Nat.mod_lt _ (by norm_num)
  omega

theorem rounded_base_le (x : Nat) : (x + 16) / 16 * 16 ≤ x + 16 := by
  have h := Nat.div_add_mod (x + 16) 16
  omega

/-- Claim C3 (corrected form): in multi-master mode every successful
`hammer_alloc_tid` call returns `base ||| master_id` and stores
`next_tid = base + count * HAMMER_MAX_MASTERS`, where `base` is the
smallest multiple of HAMMER_MAX_MASTERS *strictly greater* than the old
`next_tid` - not `round_up(next_tid, MAX_MASTERS)`, which differs
exactly when `next_tid` is already a multiple of 16.  The specified
scenario (master_id 2, next_tid 100, allocate(1) returns 114 and leaves
next_tid 128) holds. -/
theorem alloc_tid_multi_base (hmp : HammerMount) (count t : Nat) (h1 : HammerMount)
    (hm : 0 ≤ hmp.master_id) (h : hammer_alloc_tid hmp count = some (t, h1)) :
    (∃ base : Nat, 16 ∣ base ∧ hmp.next_tid < base ∧ base ≤ hmp.next_tid + 16 ∧
        t = base ||| hmp.master_id.toNat ∧
        h1.next_tid = base + count * HAMMER_MAX_MASTERS) ∧
      hammer_alloc_tid (mkMount 2 100 [] 0) 1 = some (114, mkMount 2 128 [] 0) := by
  have hm2 : ¬ hmp.master_id < 0 := by omega
  obtain ⟨ht, hnext, _, _, _, _⟩ := alloc_tid_multi hmp count t h1 hm2 h
  refine ⟨⟨(hmp.next_tid + 16) / 16 * 16, ?_, rounded_base_gt _, rounded_base_le _,
      ht, ?_⟩, by decide⟩
  · exact dvd_mul_left 16 ((hmp.next_tid + 16) / 16)
  · simpa [HAMMER_MAX_MASTERS] using hnext

/-- Claim C3, counterexample: at `next_tid = 96` (a multiple of 16, the
state every multi-master allocation leaves behind) the code returns
`112 ||| 2 = 114` and stores 128, while the claim's formula
`base = round_up(next_tid, 16)` predicts `96 ||| 2 = 98` and 112. -/
theorem alloc_tid_round_up_counterexample :
    hammer_alloc_tid (mkMount 2 96 [] 0) 1 = some (114, mkMount 2 128 [] 0) ∧
    allocTidSpecMulti (mkMount 2 96 [] 0) 1 = (98, 112) ∧
    (114 : Nat) ≠ 98 := by
  refine ⟨by decide, by decide, by decide⟩

/-- Claim C3 witness: the corrected statement applied at the
specification's own scenario (master 2, next_tid 100, allocate(1)). -/
theorem alloc_tid_multi_base_witness :
    (∃ base : Nat, 16 ∣ base ∧ 100 < base ∧ base ≤ 100 + 16 ∧
        (114 : Nat) = base ||| (2 : Int).toNat ∧
        (128 : Nat) = base + 1 * HAMMER_MAX_MASTERS) ∧
      hammer_alloc_tid (mkMount 2 100 [] 0) 1 = some (114, mkMount 2 128 [] 0) := by
  exact alloc_tid_multi_base (mkMount 2 100 [] 0) 1 114 (mkMount 2 128 [] 0)
    (by decide) (by decide)

/-- Claim C4 (corrected form): from a single-master mount with
`next_tid = 100`, `allocate(1)` returns 101 and leaves `next_tid = 102`
(as claimed); the subsequent `allocate(5)` then returns 103 and leaves
`next_tid = 108` (the claim predicted 102 and 107: it forgot that the
allocator skips one id, returning `next_tid + 1`, on every call). -/
theorem alloc_tid_scenario_single :
    hammer_alloc_tid (mkMount (-1) 100 [] 0) 1 = some (101, mkMount (-1) 102 [] 0) ∧
    hammer_alloc_tid (mkMount (-1) 102 [] 0) 5 = some (103, mkMount (-1) 108 [] 0) := by
  refine ⟨by decide, by decide⟩

/-- Claim C4, counterexample: the second call of the claimed scenario.
With `next_tid = 102` (the state after `allocate(1)` returned 101),
`allocate(5)` returns 103 and leaves `next_tid = 108`, not the claimed
return 102 with `next_tid = 107`. -/
theorem alloc_tid_scenario_counterexample :
    hammer_alloc_tid (mkMount (-1) 102 [] 0) 5 = some (103, mkMount (-1) 108 [] 0) ∧
    (103 : Nat) ≠ 102 ∧ (108 : Nat) ≠ 107 := by
  refine ⟨by decide, by decide, by decide⟩

/-- Claim C6: `hammer_alloc_tid` panics (modelled as `none`) exactly
when the id it is about to return reaches `TID_LIMIT =
0xFFFFFFFFFF000000`; whenever the computed id is below the bound the
call returns normally, and the returned id is that computed id. -/
theorem alloc_tid_panic_iff (hmp : HammerMount) (count : Nat) :
    (hammer_alloc_tid hmp count = none ↔ TID_LIMIT ≤ rawTid hmp count) ∧
      (∀ t h1, hammer_alloc_tid hmp count = some (t, h1) →
        t = rawTid hmp count ∧ t < TID_LIMIT) := by
  by_cases hm : hmp.master_id < 0
  · unfold hammer_alloc_tid rawTid
    rw [if_pos hm, if_pos hm]
    by_cases hlim : TID_LIMIT ≤ hmp.next_tid + 1
    · simp [hlim]
    · simp only [if_neg hlim]
      constructor
      · simp [hlim]
      · intro t h1 h
        simp only [Option.some.injEq, Prod.mk.injEq] at h
        obtain ⟨rfl, _⟩ := h
        exact ⟨rfl, Nat.lt_of_not_le hlim⟩
  · unfold hammer_alloc_tid rawTid
    rw [if_neg hm, if_neg hm]
    by_cases hlim : TID_LIMIT ≤
        ((hmp.next_tid + HAMMER_MAX_MASTERS) / HAMMER_MAX_MASTERS * HAMMER_MAX_MASTERS)
          ||| hmp.master_id.toNat
    · simp [hlim]
    · simp only [if_neg hlim]
      constructor
      · simp [hlim]
      · intro t h1 h
        simp only [Option.some.injEq, Prod.mk.injEq] at h
        obtain ⟨rfl, _⟩ := h
        exact ⟨rfl, Nat.lt_of_not_le hlim⟩

/-- Bounds respected by every single-master serial run: the mount's
`next_tid` never decreases, every returned base lies strictly above the
initial `next_tid`, and every returned range ends at or below the final
`next_tid`. -/
theorem runTid_single_bounds (counts : List Nat) :
    ∀ (hmp h2 : HammerMount) (ts : List Nat), hmp.master_id < 0 →
      runTid hmp counts = some (ts, h2) →
      hmp.next_tid ≤ h2.next_tid ∧
        (∀ p ∈ ts.zip counts, hmp.next_tid < p.1 ∧ p.1 + p.2 ≤ h2.next_tid) ∧
        (∀ b ∈ ts, hmp.next_tid < b) := by
  induction counts with
  | nil =>
    intro hmp h2 ts _ h
    unfold runTid at h
    simp only [Option.some.injEq, Prod.mk.injEq] at h
    obtain ⟨rfl, rfl⟩ := h
    simp
  | cons c cs ih =>
    intro hmp h2 ts hm h
    unfold runTid at h
    match halloc : hammer_alloc_tid hmp c with
    | none => rw [halloc] at h; simp at h
    | some (t, h1) =>
      rw [halloc] at h
      dsimp only at h
      match hrun : runTid h1 cs with
      | none => rw [hrun] at h; simp at h
      | some (ts1, h3) =>
        rw [hrun] at h
        dsimp only at h
        simp only [Option.some.injEq, Prod.mk.injEq] at h
        obtain ⟨rfl, rfl⟩ := h
        obtain ⟨ht, hnext, _, hmast, _, _⟩ := alloc_tid_single hmp c t h1 hm halloc
        have hm1 : h1.master_id < 0 := by rw [hmast]; exact hm
        obtain ⟨hle, hzip, hmem⟩ := ih h1 h3 ts1 hm1 hrun
        refine ⟨by omega, ?_, ?_⟩
        · intro p hp
          rw [List.zip_cons_cons] at hp
          rcases List.mem_cons.mp hp with rfl | htail
          · constructor <;> omega
          · have := hzip p htail
            omega
        · intro b hb
          rcases List.mem_cons.mp hb with rfl | hb1
          · omega
          · have := hmem b hb1
            omega

/-- Claim C1: in single-master mode, any serial sequence of
`hammer_alloc_tid` calls yields ranges `[base_i, base_i + count_i)`
that are pairwise disjoint, and the bases strictly increase with call
order. -/
theorem tid_ranges_disjoint (counts : List Nat) :
    ∀ (hmp h2 : HammerMount) (ts : List Nat), hmp.master_id < 0 →
      runTid hmp counts = some (ts, h2) →
      List.Pairwise
          (fun p q : Nat × Nat =>
            ∀ x : Nat, ¬ (p.1 ≤ x ∧ x < p.1 + p.2 ∧ q.1 ≤ x ∧ x < q.1 + q.2))
          (ts.zip counts) ∧
        List.Pairwise (fun a b : Nat => a < b) ts := by
  induction counts with
  | nil =>
    intro hmp h2 ts _ h
    unfold runTid at h
    simp only [Option.some.injEq, Prod.mk.injEq] at h
    obtain ⟨rfl, rfl⟩ := h
    simp
  | cons c cs ih =>
    intro hmp h2 ts hm h
    unfold runTid at h
    match halloc : hammer_alloc_tid hmp c with
    | none => rw [halloc] at h; simp at h
    | some (t, h1) =>
      rw [halloc] at h
      dsimp only at h
      match hrun : runTid h1 cs with
      | none => rw [hrun] at h; simp at h
      | some (ts1, h3) =>
        rw [hrun] at h
        dsimp only at h
        simp only [Option.some.injEq, Prod.mk.injEq] at h
        obtain ⟨rfl, rfl⟩ := h
        obtain ⟨ht, hnext, _, hmast, _, _⟩ := alloc_tid_single hmp c t h1 hm halloc
        have hm1 : h1.master_id < 0 := by rw [hmast]; exact hm
        obtain ⟨hpair, hlt⟩ := ih h1 h3 ts1 hm1 hrun
        obtain ⟨_, hzip, hmem⟩ := runTid_single_bounds cs h1 h3 ts1 hm1 hrun
        constructor
        · rw [List.zip_cons_cons]
          refine List.Pairwise.cons ?_ hpair
          intro q hq x hx
          have := hzip q hq
          omega
        · refine List.Pairwise.cons ?_ hlt
          intro b hb
          have := hmem b hb
          omega

/-- Claim C1 witness: the run `allocate(1); allocate(5)` from a
single-master mount at `next_tid = 100` returns bases 101 and 103 with
disjoint ranges in increasing order. -/
theorem tid_ranges_disjoint_witness :
    List.Pairwise
        (fun p q : Nat × Nat =>
          ∀ x : Nat, ¬ (p.1 ≤ x ∧ x < p.1 + p.2 ∧ q.1 ≤ x ∧ x < q.1 + q.2))
        ([101, 103].zip [1, 5]) ∧
      List.Pairwise (fun a b : Nat => a < b) [101, 103] := by
  exact tid_ranges_disjoint [1, 5] (mkMount (-1) 100 [] 0) (mkMount (-1) 108 [] 0)
    [101, 103] (by decide) (by decide)

/-- Claim C6 witness: a call whose computed id reaches the bound panics
(single-master at `next_tid = TID_LIMIT`), and a call below the bound
returns normally with the computed id. -/
theorem alloc_tid_panic_iff_witness :
    hammer_alloc_tid (mkMount (-1) TID_LIMIT [] 0) 1 = none ∧
    ((101 : Nat) = rawTid (mkMount (-1) 100 [] 0) 1 ∧ (101 : Nat) < TID_LIMIT) := by
  constructor
  · exact (alloc_tid_panic_iff (mkMount (-1) TID_LIMIT [] 0) 1).1.mpr (by decide)
  · exact (alloc_tid_panic_iff (mkMount (-1) 100 [] 0) 1).2 101
      (mkMount (-1) 102 [] 0) (by decide)


/-! Transaction lifecycle: `hammer_done_transaction`. -/

/-- The three transaction kinds, HAMMER_TRANS_STD / _RO / _FLS. -/
inductive TransType where
  | std
  | ro
  | fls
  deriving Repr, DecidableEq

/-- The two transaction flags consulted at transaction end.  The C keeps
them as distinct bits of `trans->flags` (HAMMER_TRANSF_NEWINODE and
HAMMER_TRANSF_DIDIO); testing a bit is modelled as reading the
corresponding boolean. -/
structure TransFlags where
  newinode : Bool
  didio : Bool
  deriving Repr, DecidableEq

/-- The fields of `struct hammer_transaction` that
`hammer_done_transaction` reads or writes.  `rootvol` records whether
the root-volume reference is still held. -/
structure HammerTransaction where
  ttype : TransType
  sync_lock_refs : Int
  flags : TransFlags
  rootvol : Bool
  deriving Repr, DecidableEq

/-- The external wait collaborators `hammer_done_transaction` may call. -/
inductive WaitCall where
  | inode_waitreclaims
  | inode_waithard
  deriving Repr, DecidableEq

/-- hammer_done_transaction (hammer_transaction.c lines 118-135).
Releases the root volume, checks
`KKASSERT(trans->sync_lock_refs == expected_lock_refs)` with
`expected_lock_refs = (type == FLS) ? 1 : 0` - failure is a kernel
panic, modelled as `none` - resets `sync_lock_refs` to 0, and for
non-flusher transactions calls `hammer_inode_waitreclaims` if the
NEWINODE flag is set, else `hammer_inode_waithard` if the DIDIO flag
is set.  The collaborator calls performed are returned as a list. -/
def hammer_done_transaction (trans : HammerTransaction) :
    Option (HammerTransaction × List WaitCall) :=
  let expected_lock_refs : Int := if trans.ttype = TransType.fls then 1 else 0
  if trans.sync_lock_refs = expected_lock_refs then
    let waits :=
      if trans.ttype ≠ TransType.fls then
        if trans.flags.newinode then [WaitCall.inode_waitreclaims]
        else if trans.flags.didio then [WaitCall.inode_waithard]
        else []
      else []
    some ({ trans with rootvol := false, sync_lock_refs := 0 }, waits)
  else
    none

/-- Claim C7: `hammer_done_transaction` hits the fatal assertion exactly
when `sync_lock_refs` differs from the kind-dependent expected value
(1 for a flusher transaction, 0 for standard or read-only); otherwise
it completes with `sync_lock_refs` reset to 0. -/
theorem done_transaction_assert (trans : HammerTransaction) :
    (hammer_done_transaction trans = none ↔
      trans.sync_lock_refs ≠ (if trans.ttype = TransType.fls then (1 : Int) else 0)) ∧
      (∀ trans2 ws, hammer_done_transaction trans = some (trans2, ws) →
        trans2.sync_lock_refs = 0 ∧ trans2.ttype = trans.ttype) := by
  unfold hammer_done_transaction
  by_cases hrefs : trans.sync_lock_refs =
      (if trans.ttype = TransType.fls then (1 : Int) else 0)
  · rw [if_pos hrefs]
    constructor
    · simp [hrefs]
    · intro trans2 ws h
      simp only [Option.some.injEq, Prod.mk.injEq] at h
      obtain ⟨rfl, _⟩ := h
      exact ⟨rfl, rfl⟩
  · rw [if_neg hrefs]
    constructor
    · simp [hrefs]
    · intro trans2 ws h
      simp at h

/-- Claim C7 witness: a flusher transaction with `sync_lock_refs = 0`
panics, and a standard transaction with `sync_lock_refs = 0` completes
with `sync_lock_refs` still 0. -/
theorem done_transaction_assert_witness :
    (hammer_done_transaction
        { ttype := TransType.fls, sync_lock_refs := 0,
          flags := { newinode := false, didio := false }, rootvol := true } = none) ∧
      ((0 : Int) = 0 ∧ TransType.std = TransType.std) := by
  constructor
  · exact (done_transaction_assert
      { ttype := TransType.fls, sync_lock_refs := 0,
        flags := { newinode := false, didio := false }, rootvol := true }).1.mpr
      (by decide)
  · exact (done_transaction_assert
      { ttype := TransType.std, sync_lock_refs := 0,
        flags := { newinode := false, didio := false }, rootvol := true }).2
      { ttype := TransType.std, sync_lock_refs := 0,
        flags := { newinode := false, didio := false }, rootvol := false }
      [] (by decide)

/-- Claim C8: a completing `hammer_done_transaction` calls the
inode-reclaim wait exactly when the transaction is not a flusher
transaction and NEWINODE was set; it calls the hard-IO wait exactly
when it is not a flusher transaction, NEWINODE was not set and DIDIO
was set; a flusher transaction calls neither wait, whatever its flags. -/
theorem done_transaction_waits (trans : HammerTransaction)
    (trans2 : HammerTransaction) (ws : List WaitCall)
    (h : hammer_done_transaction trans = some (trans2, ws)) :
    (WaitCall.inode_waitreclaims ∈ ws ↔
        trans.ttype ≠ TransType.fls ∧ trans.flags.newinode = true) ∧
      (WaitCall.inode_waithard ∈ ws ↔
        trans.ttype ≠ TransType.fls ∧ trans.flags.newinode = false ∧
          trans.flags.didio = true) ∧
      (trans.ttype = TransType.fls → ws = []) := by
  unfold hammer_done_transaction at h
  by_cases hrefs : trans.sync_lock_refs =
      (if trans.ttype = TransType.fls then (1 : Int) else 0)
  · rw [if_pos hrefs] at h
    simp only [Option.some.injEq, Prod.mk.injEq] at h
    obtain ⟨_, rfl⟩ := h
    by_cases hfls : trans.ttype = TransType.fls
    · simp [hfls]
    · by_cases hni : trans.flags.newinode
      · simp [hfls, hni]
      · by_cases hio : trans.flags.didio
        · simp [hfls, hni, hio]
        · simp [hfls, hni, hio]
  · rw [if_neg hrefs] at h
    simp at h

/-- Claim C8 witness: a standard transaction with NEWINODE set calls
exactly the inode-reclaim wait. -/
theorem done_transaction_waits_witness :
    (WaitCall.inode_waitreclaims ∈ [WaitCall.inode_waitreclaims] ↔
        TransType.std ≠ TransType.fls ∧ true = true) ∧
      (WaitCall.inode_waithard ∈ [WaitCall.inode_waitreclaims] ↔
        TransType.std ≠ TransType.fls ∧ true = false ∧ true = true) ∧
      (TransType.std = TransType.fls → [WaitCall.inode_waitreclaims] = []) := by
  exact done_transaction_waits
    { ttype := TransType.std, sync_lock_refs := 0,
      flags := { newinode := true, didio := true }, rootvol := true }
    { ttype := TransType.std, sync_lock_refs := 0,
      flags := { newinode := true, didio := true }, rootvol := false }
    [WaitCall.inode_waitreclaims] (by decide)

/-! The per-directory object-id cache:
`hammer_alloc_objid`, `hammer_clear_objid`, `hammer_destroy_objid_cache`
(hammer_transaction.c lines 171-245). -/

/-- The directory's cache pointer `dip->objid_cache`: the first pool
entry owned by directory `dip`.  The C code binds at most one entry to a
directory at any time, so the first match is the unique one. -/
def dirObjidCache (hmp : HammerMount) (dip : Nat) : Option HammerObjidCache :=
  hmp.objid_cache_list.find? (fun o => o.dip == some dip)

/-- The id stride inside a cache entry: "The TID is incremented by 1 or
by 16 depending what mode the mount is operating in." -/
def ocpStep (hmp : HammerMount) : Nat :=
  if hmp.master_id < 0 then 1 else HAMMER_MAX_MASTERS

/-- The entry-obtaining loop of hammer_alloc_objid (lines 180-200): if
the directory has no bound entry, either create a fresh one (pool below
capacity: kmalloc, bulk-reserve OBJID_CACHE_BULK tids, TAILQ_INSERT_HEAD,
increment the pool count, then re-check the directory pointer - the
kmalloc may have blocked - and bind only if it is still empty), or, at
capacity, take TAILQ_FIRST, clear its current owner's pointer, and
rebind it.  In the C the new entry is inserted and then bound; here the
binding decision picks the new entry's `dip` field directly, which
yields the same state.  `TAILQ_FIRST` of an empty list would be a null
dereference in C; it is modelled as `none` (unreachable while the pool
count matches the list length and the capacity is positive). -/
def obtainObjidCache (cfg : ObjidCfg) (hmp : HammerMount) (dip : Nat) : Option HammerMount :=
  match dirObjidCache hmp dip with
  | some _ => some hmp
  | none =>
    if hmp.objid_cache_count < cfg.size then
      match hammer_alloc_tid hmp cfg.count_bulk with
      | none => none
      | some (base, h) =>
        let d0 : Option Nat := if dirObjidCache h dip = none then some dip else none
        some { h with
               objid_cache_list :=
                 { next_tid := base, count := cfg.count_bulk, dip := d0 } ::
                   h.objid_cache_list,
               objid_cache_count := h.objid_cache_count + 1 }
    else
      match hmp.objid_cache_list with
      | [] => none
      | ocp :: rest =>
        some { hmp with objid_cache_list := { ocp with dip := some dip } :: rest }

/-- hammer_alloc_objid (lines 174-219): obtain the directory's cache
entry, `TAILQ_REMOVE` it (here: erase the bound entry, which is the one
`dirObjidCache` finds), take `tid = ocp->next_tid`, advance `next_tid`
by the mount stride and decrement `count`; if the count reached zero the
entry is freed and the pool count decremented, else the entry is
reinserted with `TAILQ_INSERT_TAIL`. -/
def hammer_alloc_objid (cfg : ObjidCfg) (hmp : HammerMount) (dip : Nat) :
    Option (Nat × HammerMount) :=
  match obtainObjidCache cfg hmp dip with
  | none => none
  | some hmp1 =>
    match dirObjidCache hmp1 dip with
    | none => none
    | some ocp =>
      let pool := hmp1.objid_cache_list.eraseP (fun o => o.dip == some dip)
      let tid := ocp.next_tid
      let ocp2 : HammerObjidCache :=
        { ocp with next_tid := ocp.next_tid + ocpStep hmp1, count := ocp.count - 1 }
      if ocp2.count = 0 then
        some (tid, { hmp1 with objid_cache_list := pool,
                               objid_cache_count := hmp1.objid_cache_count - 1 })
      else
        some (tid, { hmp1 with objid_cache_list := pool ++ [ocp2] })

/-- hammer_clear_objid (lines 221-232): if the directory holds a bound
entry, clear both pointers of the binding, `TAILQ_REMOVE` the entry and
`TAILQ_INSERT_HEAD` it - moving it, unbound, to the end of the pool
that eviction takes from. -/
def hammer_clear_objid (hmp : HammerMount) (dip : Nat) : HammerMount :=
  match dirObjidCache hmp dip with
  | none => hmp
  | some ocp =>
    let pool := hmp.objid_cache_list.eraseP (fun o => o.dip == some dip)
    { hmp with objid_cache_list := { ocp with dip := none } :: pool }

/-- hammer_destroy_objid_cache (lines 234-245): pop every entry off the
list, clear its owner's pointer (implicit in this representation) and
free it.  The loop never touches `objid_cache_count`. -/
def hammer_destroy_objid_cache (hmp : HammerMount) : HammerMount :=
  { hmp with objid_cache_list := [] }

/-- Serial OID-cache events on one mount: an object-id allocation for a
directory, or the release of a directory's cache entry. -/
inductive OidEvent where
  | alloc (dip : Nat)
  | clear (dip : Nat)
  deriving Repr, DecidableEq

/-- Serial execution of a list of OID-cache events, collecting every id
`hammer_alloc_objid` returns, in order; `none` if an allocation panics
(TID exhaustion) or faults. -/
def runOid (cfg : ObjidCfg) : HammerMount → List OidEvent → Option (List Nat × HammerMount)
  | hmp, [] => some ([], hmp)
  | hmp, OidEvent.alloc d :: evs =>
    match hammer_alloc_objid cfg hmp d with
    | none => none
    | some (t, h) =>
      match runOid cfg h evs with
      | none => none
      | some (ts, h2) => some (t :: ts, h2)
  | hmp, OidEvent.clear d :: evs => runOid cfg (hammer_clear_objid hmp d) evs

/-- The object ids a cache entry will hand out before it is destroyed:
`next_tid`, `next_tid + step`, ..., one per remaining count. -/
def ocpIds (step : Nat) (o : HammerObjidCache) : List Nat :=
  (List.range o.count).map (fun k => o.next_tid + k * step)

/-- All ids a list of cache entries will hand out. -/
def idsOf (step : Nat) (l : List HammerObjidCache) : List Nat :=
  l.flatMap (ocpIds step)

/-- All ids the pool's entries will hand out. -/
def poolIds (hmp : HammerMount) : List Nat :=
  idsOf (ocpStep hmp) hmp.objid_cache_list

/-- The allocation invariant tying a mount state to the multiset
`issued` of ids already returned: no id is duplicated among the issued
ids and the pending entry ranges, every entry is nonempty, and
everything lives strictly below the mount's `next_tid` watermark. -/
structure OidInv (hmp : HammerMount) (issued : List Nat) : Prop where
  nodup : (issued ++ poolIds hmp).Nodup
  pos : ∀ o ∈ hmp.objid_cache_list, 0 < o.count
  below : ∀ x ∈ issued ++ poolIds hmp, x < hmp.next_tid


/-! Helper lemmas about the id lists and the pool list operations. -/

theorem idsOf_nil (step : Nat) : idsOf step [] = [] := rfl

theorem idsOf_cons (step : Nat) (o : HammerObjidCache) (l : List HammerObjidCache) :
    idsOf step (o :: l) = ocpIds step o ++ idsOf step l := by
  unfold idsOf
  simp

theorem idsOf_append (step : Nat) (l1 l2 : List HammerObjidCache) :
    idsOf step (l1 ++ l2) = idsOf step l1 ++ idsOf step l2 := by
  unfold idsOf
  simp

theorem mem_ocpIds (step : Nat) (o : HammerObjidCache) (x : Nat) :
    x ∈ ocpIds step o ↔ ∃ k, k < o.count ∧ x = o.next_tid + k * step := by
  unfold ocpIds
  simp only [List.mem_map, List.mem_range]
  constructor
  · rintro ⟨k, hk, rfl⟩
    exact ⟨k, hk, rfl⟩
  · rintro ⟨k, hk, rfl⟩
    exact ⟨k, hk, rfl⟩

theorem mem_idsOf (step : Nat) (l : List HammerObjidCache) (x : Nat) :
    x ∈ idsOf step l ↔ ∃ o ∈ l, x ∈ ocpIds step o := by
  unfold idsOf
  simp

theorem ocpIds_nodup (step : Nat) (o : HammerObjidCache) (hs : 0 < step) :
    (ocpIds step o).Nodup := by
  unfold ocpIds
  refine List.Nodup.map ?_ (List.nodup_range _)
  intro k1 k2 hk
  simp only at hk
  exact Nat.eq_of_mul_eq_mul_right hs (Nat.add_left_cancel hk)

theorem ocpIds_cons (step : Nat) (o : HammerObjidCache) (h : 0 < o.count) (d : Option Nat) :
    ocpIds step o =
      o.next_tid ::
        ocpIds step { next_tid := o.next_tid + step, count := o.count - 1, dip := d } := by
  unfold ocpIds
  obtain ⟨c, hc⟩ : ∃ c, o.count = c + 1 := ⟨o.count - 1, by omega⟩
  rw [hc]
  simp only [List.range_succ_eq_map, List.map_cons, List.map_map, Nat.add_sub_cancel]
  refine List.cons_eq_cons.mpr ⟨by simp, ?_⟩
  refine List.map_congr_left ?_
  intro a _
  simp only [Function.comp_apply, Nat.succ_mul, Nat.succ_eq_add_one]
  ring

theorem ocpStep_pos (hmp : HammerMount) : 0 < ocpStep hmp := by
  unfold ocpStep HAMMER_MAX_MASTERS
  split <;> omega

theorem ocpStep_eq_of_master (h1 h2 : HammerMount) (h : h1.master_id = h2.master_id) :
    ocpStep h1 = ocpStep h2 := by
  unfold ocpStep
  rw [h]

theorem dirObjidCache_eq_of_list (h1 h2 : HammerMount) (d : Nat)
    (h : h1.objid_cache_list = h2.objid_cache_list) :
    dirObjidCache h1 d = dirObjidCache h2 d := by
  unfold dirObjidCache
  rw [h]

/-- A successful `find?` splits the list around the found element, and
`eraseP` with the same predicate removes exactly that element. -/
theorem find?_eraseP_decomp {α : Type} (p : α → Bool) :
    ∀ (l : List α) (a : α), l.find? p = some a →
      ∃ l1 l2, l = l1 ++ a :: l2 ∧ l.eraseP p = l1 ++ l2 ∧ p a = true := by
  intro l
  induction l with
  | nil =>
    intro a h
    simp [List.find?] at h
  | cons b t ih =>
    intro a h
    by_cases hpb : p b
    · rw [List.find?_cons_of_pos _ hpb] at h
      obtain rfl : b = a := by injection h
      exact ⟨[], t, by simp, by simp [hpb], hpb⟩
    · rw [List.find?_cons_of_neg _ hpb] at h
      obtain ⟨l1, l2, he, her, hpa⟩ := ih a h
      refine ⟨b :: l1, l2, by simp [he], ?_, hpa⟩
      rw [List.eraseP_cons_of_neg hpb, her]
      simp

/-- `hammer_alloc_tid` changes nothing but `next_tid`. -/
theorem alloc_tid_preserves (hmp : HammerMount) (c t : Nat) (h1 : HammerMount)
    (h : hammer_alloc_tid hmp c = some (t, h1)) :
    h1.master_id = hmp.master_id ∧ h1.objid_cache_list = hmp.objid_cache_list ∧
      h1.objid_cache_count = hmp.objid_cache_count := by
  by_cases hm : hmp.master_id < 0
  · obtain ⟨_, _, _, hm1, hl, hc⟩ := alloc_tid_single hmp c t h1 hm h
    exact ⟨hm1, hl, hc⟩
  · obtain ⟨_, _, _, hm1, hl, hc⟩ := alloc_tid_multi hmp c t h1 hm h
    exact ⟨hm1, hl, hc⟩

/-- Freshness of a TID reservation: every id of the reserved block (at
the mount's stride) lies strictly between the previous and the new
`next_tid` watermark. -/
theorem alloc_tid_fresh (hmp : HammerMount) (c t : Nat) (h1 : HammerMount)
    (hm16 : hmp.master_id < 16) (h : hammer_alloc_tid hmp c = some (t, h1)) :
    hmp.next_tid < h1.next_tid ∧
      ∀ k, k < c →
        hmp.next_tid < t + k * ocpStep hmp ∧ t + k * ocpStep hmp < h1.next_tid := by
  by_cases hm : hmp.master_id < 0
  · obtain ⟨ht, hnext, _, _, _, _⟩ := alloc_tid_single hmp c t h1 hm h
    have hstep : ocpStep hmp = 1 := by unfold ocpStep; rw [if_pos hm]
    rw [hstep]
    subst ht
    constructor
    · omega
    · intro k hk
      omega
  · obtain ⟨ht, hnext, _, _, _, _⟩ := alloc_tid_multi hmp c t h1 hm h
    have hstep : ocpStep hmp = 16 := by
      unfold ocpStep HAMMER_MAX_MASTERS
      rw [if_neg hm]
    have hmlt : hmp.master_id.toNat < 16 := by omega
    have hbase : (hmp.next_tid + 16) / 16 * 16 ||| hmp.master_id.toNat =
        (hmp.next_tid + 16) / 16 * 16 + hmp.master_id.toNat :=
      lor_master _ _ (rounded_base_mod hmp.next_tid) hmlt
    rw [hbase] at ht
    have hgt := rounded_base_gt hmp.next_tid
    rw [hstep]
    subst ht
    constructor
    · omega
    · intro k hk
      have h16 : 16 * k < 16 * c := by omega
      constructor <;> omega


/-- The entry-obtaining phase preserves the allocation invariant, keeps
the master id, and leaves the directory bound to some entry. -/
theorem obtain_objid_inv (cfg : ObjidCfg) (hmp : HammerMount) (dip : Nat)
    (issued : List Nat) (hmp1 : HammerMount) (hm16 : hmp.master_id < 16)
    (hb : 1 ≤ cfg.count_bulk) (inv : OidInv hmp issued)
    (h : obtainObjidCache cfg hmp dip = some hmp1) :
    OidInv hmp1 issued ∧ hmp1.master_id = hmp.master_id ∧
      ∃ o, dirObjidCache hmp1 dip = some o := by
  unfold obtainObjidCache at h
  cases hfind : dirObjidCache hmp dip with
  | some o =>
    rw [hfind] at h
    dsimp only at h
    injection h with h2
    subst h2
    exact ⟨inv, rfl, ⟨o, hfind⟩⟩
  | none =>
    rw [hfind] at h
    dsimp only at h
    by_cases hcap : hmp.objid_cache_count < cfg.size
    · rw [if_pos hcap] at h
      match halloc : hammer_alloc_tid hmp cfg.count_bulk with
      | none => rw [halloc] at h; simp at h
      | some (base, hx) =>
        rw [halloc] at h
        dsimp only at h
        obtain ⟨hmast, hlist, hcnt⟩ := alloc_tid_preserves hmp cfg.count_bulk base hx halloc
        have hfind2 : dirObjidCache hx dip = none := by
          rw [dirObjidCache_eq_of_list hx hmp dip hlist]
          exact hfind
        rw [if_pos hfind2] at h
        injection h with h2
        subst h2
        obtain ⟨hmono, hfr⟩ := alloc_tid_fresh hmp cfg.count_bulk base hx hm16 halloc
        have hm1 : ({ hx with
            objid_cache_list :=
              { next_tid := base, count := cfg.count_bulk, dip := some dip } ::
                hx.objid_cache_list,
            objid_cache_count := hx.objid_cache_count + 1 } : HammerMount).master_id =
            hmp.master_id := hmast
        have hstep1 : ocpStep { hx with
            objid_cache_list :=
              { next_tid := base, count := cfg.count_bulk, dip := some dip } ::
                hx.objid_cache_list,
            objid_cache_count := hx.objid_cache_count + 1 } = ocpStep hmp :=
          ocpStep_eq_of_master _ _ hm1
        have hpid : poolIds { hx with
            objid_cache_list :=
              { next_tid := base, count := cfg.count_bulk, dip := some dip } ::
                hx.objid_cache_list,
            objid_cache_count := hx.objid_cache_count + 1 } =
            ocpIds (ocpStep hmp) { next_tid := base, count := cfg.count_bulk, dip := some dip }
              ++ poolIds hmp := by
          unfold poolIds
          rw [hstep1]
          rw [show ({ hx with
              objid_cache_list :=
                { next_tid := base, count := cfg.count_bulk, dip := some dip } ::
                  hx.objid_cache_list,
              objid_cache_count := hx.objid_cache_count + 1 } : HammerMount).objid_cache_list =
              { next_tid := base, count := cfg.count_bulk, dip := some dip } ::
                hx.objid_cache_list from rfl]
          rw [idsOf_cons, hlist]
        have hmemA : ∀ x ∈ ocpIds (ocpStep hmp)
            { next_tid := base, count := cfg.count_bulk, dip := some dip },
            hmp.next_tid < x ∧ x < hx.next_tid := by
          intro x hxmem
          rw [mem_ocpIds] at hxmem
          obtain ⟨k, hk, rfl⟩ := hxmem
          exact hfr k hk
        refine ⟨⟨?_, ?_, ?_⟩, hmast, ?_⟩
        · rw [hpid]
          have hA : (ocpIds (ocpStep hmp)
              { next_tid := base, count := cfg.count_bulk, dip := some dip }).Nodup :=
            ocpIds_nodup _ _ (ocpStep_pos hmp)
          have hdisj : (ocpIds (ocpStep hmp)
              { next_tid := base, count := cfg.count_bulk, dip := some dip }).Disjoint
              (issued ++ poolIds hmp) := by
            intro a haA haOld
            have h1 := (hmemA a haA).1
            have h2 := inv.below a haOld
            omega
          have hrhs : ((ocpIds (ocpStep hmp)
              { next_tid := base, count := cfg.count_bulk, dip := some dip }) ++
              (issued ++ poolIds hmp)).Nodup :=
            List.nodup_append.mpr ⟨hA, inv.nodup, hdisj⟩
          have hperm : List.Perm ((ocpIds (ocpStep hmp)
              { next_tid := base, count := cfg.count_bulk, dip := some dip }) ++
              (issued ++ poolIds hmp))
              (issued ++ ((ocpIds (ocpStep hmp)
                { next_tid := base, count := cfg.count_bulk, dip := some dip }) ++
                poolIds hmp)) := by
            rw [← List.append_assoc, ← List.append_assoc]
            exact List.perm_append_comm.append_right _
          exact hperm.nodup hrhs
        · intro o ho
          rw [show ({ hx with
              objid_cache_list :=
                { next_tid := base, count := cfg.count_bulk, dip := some dip } ::
                  hx.objid_cache_list,
              objid_cache_count := hx.objid_cache_count + 1 } : HammerMount).objid_cache_list =
              { next_tid := base, count := cfg.count_bulk, dip := some dip } ::
                hx.objid_cache_list from rfl] at ho
          rcases List.mem_cons.mp ho with rfl | ho2
          · simpa using hb
          · rw [hlist] at ho2
            exact inv.pos o ho2
        · intro x hxmem
          rw [hpid] at hxmem
          have hnext : ({ hx with
              objid_cache_list :=
                { next_tid := base, count := cfg.count_bulk, dip := some dip } ::
                  hx.objid_cache_list,
              objid_cache_count := hx.objid_cache_count + 1 } : HammerMount).next_tid =
              hx.next_tid := rfl
          rw [hnext]
          rcases List.mem_append.mp hxmem with hxi | hxp
          · have := inv.below x (List.mem_append.mpr (Or.inl hxi))
            omega
          · rcases List.mem_append.mp hxp with hxA | hxOld
            · exact (hmemA x hxA).2
            · have := inv.below x (List.mem_append.mpr (Or.inr hxOld))
              omega
        · refine ⟨{ next_tid := base, count := cfg.count_bulk, dip := some dip }, ?_⟩
          unfold dirObjidCache
          rw [show ({ hx with
              objid_cache_list :=
                { next_tid := base, count := cfg.count_bulk, dip := some dip } ::
                  hx.objid_cache_list,
              objid_cache_count := hx.objid_cache_count + 1 } : HammerMount).objid_cache_list =
              { next_tid := base, count := cfg.count_bulk, dip := some dip } ::
                hx.objid_cache_list from rfl]
          exact List.find?_cons_of_pos _ (by simp)
    · rw [if_neg hcap] at h
      match hpool : hmp.objid_cache_list with
      | [] => rw [hpool] at h; simp at h
      | ocp :: rest =>
        rw [hpool] at h
        dsimp only at h
        injection h with h2
        subst h2
        have hm1 : ({ hmp with
            objid_cache_list := { ocp with dip := some dip } :: rest } :
            HammerMount).master_id = hmp.master_id := rfl
        have hpid : poolIds { hmp with
            objid_cache_list := { ocp with dip := some dip } :: rest } = poolIds hmp := by
          unfold poolIds
          rw [ocpStep_eq_of_master _ _ hm1]
          rw [show ({ hmp with
              objid_cache_list := { ocp with dip := some dip } :: rest } :
              HammerMount).objid_cache_list = { ocp with dip := some dip } :: rest from rfl]
          rw [hpool, idsOf_cons, idsOf_cons]
          rfl
        refine ⟨⟨?_, ?_, ?_⟩, rfl, ?_⟩
        · rw [hpid]
          exact inv.nodup
        · intro o ho
          rw [show ({ hmp with
              objid_cache_list := { ocp with dip := some dip } :: rest } :
              HammerMount).objid_cache_list = { ocp with dip := some dip } :: rest
              from rfl] at ho
          rcases List.mem_cons.mp ho with rfl | ho2
          · have : ocp ∈ hmp.objid_cache_list := by
              rw [hpool]
              exact List.mem_cons_self _ _
            have := inv.pos ocp this
            simpa using this
          · refine inv.pos o ?_
            rw [hpool]
            exact List.mem_cons.mpr (Or.inr ho2)
        · intro x hxmem
          rw [hpid] at hxmem
          exact inv.below x hxmem
        · refine ⟨{ ocp with dip := some dip }, ?_⟩
          unfold dirObjidCache
          rw [show ({ hmp with
              objid_cache_list := { ocp with dip := some dip } :: rest } :
              HammerMount).objid_cache_list = { ocp with dip := some dip } :: rest from rfl]
          exact List.find?_cons_of_pos _ (by simp)


theorem ocpIds_count_zero (step n : Nat) (d : Option Nat) :
    ocpIds step { next_tid := n, count := 0, dip := d } = [] := rfl

/-- Permutation bookkeeping for the consume step of the allocator: the
issued id moves from the front of its entry's range onto the issued
list, and the shrunken entry moves to the tail of the pool. -/
theorem nodup_consume (issued A B C : List Nat) (t : Nat)
    (h : (issued ++ (A ++ ((t :: C) ++ B))).Nodup) :
    ((t :: issued) ++ ((A ++ B) ++ C)).Nodup := by
  have hp1 : List.Perm ((issued ++ A) ++ (t :: (C ++ B)))
      (t :: ((issued ++ A) ++ (C ++ B))) := List.perm_middle
  have hp2 : List.Perm (t :: ((issued ++ A) ++ (C ++ B)))
      (t :: ((issued ++ A) ++ (B ++ C))) :=
    List.Perm.cons t (List.Perm.append_left _ List.perm_append_comm)
  have hall : List.Perm (issued ++ (A ++ ((t :: C) ++ B)))
      ((t :: issued) ++ ((A ++ B) ++ C)) := by
    have e1 : issued ++ (A ++ ((t :: C) ++ B)) = (issued ++ A) ++ (t :: (C ++ B)) := by
      simp [List.append_assoc]
    have e2 : (t :: issued) ++ ((A ++ B) ++ C) = t :: ((issued ++ A) ++ (B ++ C)) := by
      simp [List.append_assoc]
    rw [e1, e2]
    exact hp1.trans hp2
  exact hall.nodup h

/-- The depleted variant: the consumed entry disappears entirely. -/
theorem nodup_consume_dep (issued A B : List Nat) (t : Nat)
    (h : (issued ++ (A ++ ((t :: []) ++ B))).Nodup) :
    ((t :: issued) ++ (A ++ B)).Nodup := by
  have h2 := nodup_consume issued A B [] t h
  simpa using h2

/-- Permutation bookkeeping for the release step: a bound entry moves,
ids unchanged, to the head of the pool. -/
theorem nodup_release (issued A B C : List Nat)
    (h : (issued ++ (A ++ (C ++ B))).Nodup) :
    (issued ++ (C ++ (A ++ B))).Nodup := by
  have hp : List.Perm (A ++ (C ++ B)) (C ++ (A ++ B)) := by
    have hp1 : List.Perm (A ++ (C ++ B)) ((C ++ B) ++ A) := List.perm_append_comm
    have hp2 : List.Perm ((C ++ B) ++ A) (C ++ (B ++ A)) := by
      rw [List.append_assoc]
    have hp3 : List.Perm (C ++ (B ++ A)) (C ++ (A ++ B)) :=
      List.Perm.append_left _ List.perm_append_comm
    exact (hp1.trans hp2).trans hp3
  exact (List.Perm.append_left issued hp).nodup h


/-- One `hammer_alloc_objid` call preserves the allocation invariant,
recording the returned id as issued, and keeps the master id. -/
theorem alloc_objid_inv (cfg : ObjidCfg) (hmp : HammerMount) (dip : Nat)
    (issued : List Nat) (t : Nat) (h2 : HammerMount) (hm16 : hmp.master_id < 16)
    (hb : 1 ≤ cfg.count_bulk) (inv : OidInv hmp issued)
    (h : hammer_alloc_objid cfg hmp dip = some (t, h2)) :
    OidInv h2 (t :: issued) ∧ h2.master_id = hmp.master_id := by
  unfold hammer_alloc_objid at h
  match hobt : obtainObjidCache cfg hmp dip with
  | none => rw [hobt] at h; simp at h
  | some hmp1 =>
    rw [hobt] at h
    dsimp only at h
    obtain ⟨inv1, hmast1, _⟩ := obtain_objid_inv cfg hmp dip issued hmp1 hm16 hb inv hobt
    match hfind : dirObjidCache hmp1 dip with
    | none => rw [hfind] at h; simp at h
    | some ocp =>
      rw [hfind] at h
      dsimp only at h
      have hfind2 : hmp1.objid_cache_list.find? (fun o => o.dip == some dip) = some ocp :=
        hfind
      obtain ⟨l1, l2, hdecomp, herase, hpocp⟩ := find?_eraseP_decomp _ _ _ hfind2
      have hocp_mem : ocp ∈ hmp1.objid_cache_list := by
        rw [hdecomp]
        exact List.mem_append.mpr (Or.inr (List.mem_cons_self _ _))
      have hpos : 0 < ocp.count := inv1.pos ocp hocp_mem
      have hpid1 : poolIds hmp1 =
          idsOf (ocpStep hmp1) l1 ++
            ((ocp.next_tid :: ocpIds (ocpStep hmp1) { next_tid := ocp.next_tid + ocpStep hmp1, count := ocp.count - 1, dip := ocp.dip }) ++ idsOf (ocpStep hmp1) l2) := by
        unfold poolIds
        rw [hdecomp, idsOf_append, idsOf_cons,
          ocpIds_cons (ocpStep hmp1) ocp hpos ocp.dip]
      have hnodup1 := inv1.nodup
      rw [hpid1] at hnodup1
      rw [herase] at h
      split at h
      case isTrue hdep =>
        injection h with hpair
        injection hpair with ht hh2
        subst ht
        subst hh2
        have hdep2 : ocp.count - 1 = 0 := hdep
        have hC : ocpIds (ocpStep hmp1) { next_tid := ocp.next_tid + ocpStep hmp1, count := ocp.count - 1, dip := ocp.dip } = [] := by
          rw [hdep2]
          exact ocpIds_count_zero _ _ _
        rw [hC] at hnodup1 hpid1
        have hpid2 : poolIds { hmp1 with objid_cache_list := l1 ++ l2, objid_cache_count := hmp1.objid_cache_count - 1 } =
            idsOf (ocpStep hmp1) l1 ++ idsOf (ocpStep hmp1) l2 := by
          show idsOf (ocpStep hmp1) (l1 ++ l2) =
            idsOf (ocpStep hmp1) l1 ++ idsOf (ocpStep hmp1) l2
          rw [idsOf_append]
        refine ⟨⟨?_, ?_, ?_⟩, hmast1⟩
        · rw [hpid2]
          exact nodup_consume_dep issued _ _ ocp.next_tid hnodup1
        · intro o ho
          rw [show ({ hmp1 with objid_cache_list := l1 ++ l2, objid_cache_count := hmp1.objid_cache_count - 1 } : HammerMount).objid_cache_list = l1 ++ l2 from rfl] at ho
          refine inv1.pos o ?_
          rw [hdecomp]
          rcases List.mem_append.mp ho with h1 | h2
          · exact List.mem_append.mpr (Or.inl h1)
          · exact List.mem_append.mpr (Or.inr (List.mem_cons.mpr (Or.inr h2)))
        · intro x hx
          rw [hpid2] at hx
          have hx2 : x ∈ issued ++ poolIds hmp1 := by
            rw [hpid1]
            simp only [List.mem_append, List.mem_cons] at hx ⊢
            tauto
          exact inv1.below x hx2
      case isFalse hdep =>
        injection h with hpair
        injection hpair with ht hh2
        subst ht
        subst hh2
        have hdep2 : ¬ ocp.count - 1 = 0 := hdep
        have hpid2 : poolIds { hmp1 with objid_cache_list := (l1 ++ l2) ++ [{ ocp with next_tid := ocp.next_tid + ocpStep hmp1, count := ocp.count - 1 }] } =
            (idsOf (ocpStep hmp1) l1 ++ idsOf (ocpStep hmp1) l2) ++
              (ocpIds (ocpStep hmp1) { next_tid := ocp.next_tid + ocpStep hmp1, count := ocp.count - 1, dip := ocp.dip } ++ []) := by
          show idsOf (ocpStep hmp1) ((l1 ++ l2) ++ [{ ocp with next_tid := ocp.next_tid + ocpStep hmp1, count := ocp.count - 1 }]) =
            (idsOf (ocpStep hmp1) l1 ++ idsOf (ocpStep hmp1) l2) ++
              (ocpIds (ocpStep hmp1) { next_tid := ocp.next_tid + ocpStep hmp1, count := ocp.count - 1, dip := ocp.dip } ++ [])
          rw [idsOf_append, idsOf_append, idsOf_cons, idsOf_nil]
        refine ⟨⟨?_, ?_, ?_⟩, hmast1⟩
        · rw [hpid2]
          rw [List.append_nil]
          exact nodup_consume issued _ _ _ ocp.next_tid hnodup1
        · intro o ho
          rw [show ({ hmp1 with objid_cache_list := (l1 ++ l2) ++ [{ ocp with next_tid := ocp.next_tid + ocpStep hmp1, count := ocp.count - 1 }] } : HammerMount).objid_cache_list = (l1 ++ l2) ++ [{ ocp with next_tid := ocp.next_tid + ocpStep hmp1, count := ocp.count - 1 }] from rfl] at ho
          rcases List.mem_append.mp ho with h12 | hocp2
          · refine inv1.pos o ?_
            rw [hdecomp]
            rcases List.mem_append.mp h12 with h1 | h2
            · exact List.mem_append.mpr (Or.inl h1)
            · exact List.mem_append.mpr (Or.inr (List.mem_cons.mpr (Or.inr h2)))
          · have : o = { ocp with next_tid := ocp.next_tid + ocpStep hmp1, count := ocp.count - 1 } := by
              simpa using hocp2
            subst this
            simpa using Nat.pos_of_ne_zero hdep2
        · intro x hx
          rw [hpid2] at hx
          have hx2 : x ∈ issued ++ poolIds hmp1 := by
            rw [hpid1]
            simp only [List.mem_append, List.mem_cons, List.not_mem_nil] at hx ⊢
            tauto
          exact inv1.below x hx2


/-- `hammer_clear_objid` preserves the allocation invariant and the
master id: the released entry keeps its pending range, merely moving,
unbound, to the head of the pool. -/
theorem clear_objid_inv (hmp : HammerMount) (dip : Nat) (issued : List Nat)
    (inv : OidInv hmp issued) :
    OidInv (hammer_clear_objid hmp dip) issued ∧
      (hammer_clear_objid hmp dip).master_id = hmp.master_id := by
  unfold hammer_clear_objid
  cases hfind : dirObjidCache hmp dip with
  | none => exact ⟨inv, rfl⟩
  | some ocp =>
    dsimp only
    have hfind2 : hmp.objid_cache_list.find? (fun o => o.dip == some dip) = some ocp :=
      hfind
    obtain ⟨l1, l2, hdecomp, herase, _⟩ := find?_eraseP_decomp _ _ _ hfind2
    rw [herase]
    have hpid1 : poolIds hmp =
        idsOf (ocpStep hmp) l1 ++ (ocpIds (ocpStep hmp) ocp ++ idsOf (ocpStep hmp) l2) := by
      unfold poolIds
      rw [hdecomp, idsOf_append, idsOf_cons]
    have hnodup1 := inv.nodup
    rw [hpid1] at hnodup1
    have hpid2 : poolIds { hmp with objid_cache_list := { ocp with dip := none } :: (l1 ++ l2) } =
        ocpIds (ocpStep hmp) ocp ++ (idsOf (ocpStep hmp) l1 ++ idsOf (ocpStep hmp) l2) := by
      show idsOf (ocpStep hmp) ({ ocp with dip := none } :: (l1 ++ l2)) =
        ocpIds (ocpStep hmp) ocp ++ (idsOf (ocpStep hmp) l1 ++ idsOf (ocpStep hmp) l2)
      rw [idsOf_cons, idsOf_append]
      rfl
    refine ⟨⟨?_, ?_, ?_⟩, rfl⟩
    · rw [hpid2]
      exact nodup_release issued _ _ _ hnodup1
    · intro o ho
      rw [show ({ hmp with objid_cache_list := { ocp with dip := none } :: (l1 ++ l2) } : HammerMount).objid_cache_list = { ocp with dip := none } :: (l1 ++ l2) from rfl] at ho
      rcases List.mem_cons.mp ho with rfl | ho2
      · have hoc : 0 < ocp.count := by
          refine inv.pos ocp ?_
          rw [hdecomp]
          exact List.mem_append.mpr (Or.inr (List.mem_cons_self _ _))
        simpa using hoc
      · refine inv.pos o ?_
        rw [hdecomp]
        rcases List.mem_append.mp ho2 with h1 | h2
        · exact List.mem_append.mpr (Or.inl h1)
        · exact List.mem_append.mpr (Or.inr (List.mem_cons.mpr (Or.inr h2)))
    · intro x hx
      rw [hpid2] at hx
      have hx2 : x ∈ issued ++ poolIds hmp := by
        rw [hpid1]
        simp only [List.mem_append] at hx ⊢
        tauto
      exact inv.below x hx2

/-- Every serial run of allocation and release events preserves the
invariant; in particular all ids it issues are distinct from each other
and from previously issued ids. -/
theorem runOid_inv (cfg : ObjidCfg) (evs : List OidEvent) :
    ∀ (hmp h2 : HammerMount) (issued ts : List Nat), hmp.master_id < 16 →
      1 ≤ cfg.count_bulk → OidInv hmp issued →
      runOid cfg hmp evs = some (ts, h2) → (ts ++ issued).Nodup := by
  induction evs with
  | nil =>
    intro hmp h2 issued ts _ _ inv h
    unfold runOid at h
    simp only [Option.some.injEq, Prod.mk.injEq] at h
    obtain ⟨rfl, rfl⟩ := h
    simpa using inv.nodup.of_append_left
  | cons ev evs ih =>
    intro hmp h2 issued ts hm16 hb inv h
    cases ev with
    | alloc d =>
      unfold runOid at h
      match halloc : hammer_alloc_objid cfg hmp d with
      | none => rw [halloc] at h; simp at h
      | some (t, hx) =>
        rw [halloc] at h
        dsimp only at h
        match hrun : runOid cfg hx evs with
        | none => rw [hrun] at h; simp at h
        | some (ts1, h3) =>
          rw [hrun] at h
          dsimp only at h
          simp only [Option.some.injEq, Prod.mk.injEq] at h
          obtain ⟨rfl, rfl⟩ := h
          obtain ⟨inv2, hmast⟩ := alloc_objid_inv cfg hmp d issued t hx hm16 hb inv halloc
          have hm16x : hx.master_id < 16 := by rw [hmast]; exact hm16
          have hnd := ih hx h3 (t :: issued) ts1 hm16x hb inv2 hrun
          have hperm : List.Perm (ts1 ++ (t :: issued)) (t :: (ts1 ++ issued)) :=
            List.perm_middle
          have := hperm.nodup hnd
          simpa using this
    | clear d =>
      unfold runOid at h
      obtain ⟨inv2, hmast⟩ := clear_objid_inv hmp d issued inv
      have hm16x : (hammer_clear_objid hmp d).master_id < 16 := by
        rw [hmast]; exact hm16
      exact ih (hammer_clear_objid hmp d) h2 issued ts hm16x hb inv2 h

/-- Claim C2: over any serial sequence of `hammer_alloc_objid` and
`hammer_clear_objid` events on one mount - including the depletion and
eviction transitions they trigger - no object id is ever returned
twice.  In particular a directory whose entry was depleted or evicted
never sees an id it was issued before, and an entry evicted from one
directory and rebound to another continues its reserved-but-unused
range without duplicating any id. -/
theorem oid_never_reissued (cfg : ObjidCfg) (master : Int) (nt : Nat)
    (evs : List OidEvent) (ts : List Nat) (h2 : HammerMount)
    (hm16 : master < 16) (hb : 1 ≤ cfg.count_bulk)
    (h : runOid cfg (mkMount master nt [] 0) evs = some (ts, h2)) : ts.Nodup := by
  have inv0 : OidInv (mkMount master nt [] 0) [] := by
    refine ⟨?_, ?_, ?_⟩
    · show (([] : List Nat) ++ idsOf (ocpStep (mkMount master nt [] 0)) []).Nodup
      simp [idsOf_nil]
    · intro o ho
      simp [mkMount] at ho
    · intro x hx
      have : x ∈ ([] : List Nat) ++ idsOf (ocpStep (mkMount master nt [] 0)) [] := hx
      simp [idsOf_nil] at this
  have hnd := runOid_inv cfg evs (mkMount master nt [] 0) h2 [] ts hm16 hb inv0 h
  simpa using hnd

/-- Claim C2 witness, the specified eviction scenario: pool capacity 1,
bulk 4, single-master, fresh mount.  Directory 0 draws ids 1 and 2 from
its entry; directory 1 then requests an id, evicting directory 0's
entry (capacity reached) and continuing its range with id 3.  No id is
duplicated or lost across the eviction. -/
theorem oid_never_reissued_witness :
    runOid { size := 1, count_bulk := 4 } (mkMount (-1) 0 [] 0)
        [OidEvent.alloc 0, OidEvent.alloc 0, OidEvent.alloc 1] =
      some ([1, 2, 3],
        mkMount (-1) 5 [{ next_tid := 4, count := 1, dip := some 1 }] 1) ∧
      ([1, 2, 3] : List Nat).Nodup := by
  constructor
  · decide
  · exact oid_never_reissued { size := 1, count_bulk := 4 } (-1) 0
      [OidEvent.alloc 0, OidEvent.alloc 0, OidEvent.alloc 1] [1, 2, 3]
      (mkMount (-1) 5 [{ next_tid := 4, count := 1, dip := some 1 }] 1)
      (by decide) (by decide) (by decide)


/-! Helper lemmas for the bound-entry fast path: the directory's cache
pointer is the head of the pool's entries filtered to its owner. -/

theorem find?_eq_head?_filter {α : Type} (p : α → Bool) (l : List α) :
    l.find? p = (l.filter p).head? := by
  induction l with
  | nil => rfl
  | cons a t ih =>
    by_cases hpa : p a
    · rw [List.find?_cons_of_pos _ hpa, List.filter_cons_of_pos hpa]
      rfl
    · rw [List.find?_cons_of_neg _ hpa, List.filter_cons_of_neg hpa, ih]

theorem filter_eraseP {α : Type} (p : α → Bool) (l : List α) :
    (l.eraseP p).filter p = (l.filter p).drop 1 := by
  induction l with
  | nil => rfl
  | cons a t ih =>
    by_cases hpa : p a
    · rw [List.eraseP_cons_of_pos hpa, List.filter_cons_of_pos hpa]
      rfl
    · rw [List.eraseP_cons_of_neg hpa, List.filter_cons_of_neg hpa,
        List.filter_cons_of_neg hpa, ih]

theorem dirObjidCache_of_filter (hmp : HammerMount) (dip : Nat) (ocp : HammerObjidCache)
    (hfil : hmp.objid_cache_list.filter (fun o => o.dip == some dip) = [ocp]) :
    dirObjidCache hmp dip = some ocp := by
  unfold dirObjidCache
  rw [find?_eq_head?_filter, hfil]
  rfl

theorem obtain_found (cfg : ObjidCfg) (hmp : HammerMount) (dip : Nat)
    (ocp : HammerObjidCache) (hfind : dirObjidCache hmp dip = some ocp) :
    obtainObjidCache cfg hmp dip = some hmp := by
  unfold obtainObjidCache
  rw [hfind]

/-- Evaluation of `hammer_alloc_objid` on a directory whose (unique)
bound entry is known: the entry's next id is returned; the entry is
erased and, unless depleted, reinserted at the tail advanced by one
stride. -/
theorem alloc_objid_found (cfg : ObjidCfg) (hmp : HammerMount) (dip : Nat)
    (ocp : HammerObjidCache)
    (hfil : hmp.objid_cache_list.filter (fun o => o.dip == some dip) = [ocp]) :
    hammer_alloc_objid cfg hmp dip =
      (if ocp.count - 1 = 0 then
        some (ocp.next_tid, { hmp with objid_cache_list := hmp.objid_cache_list.eraseP (fun o => o.dip == some dip), objid_cache_count := hmp.objid_cache_count - 1 })
      else
        some (ocp.next_tid, { hmp with objid_cache_list := hmp.objid_cache_list.eraseP (fun o => o.dip == some dip) ++ [{ ocp with next_tid := ocp.next_tid + ocpStep hmp, count := ocp.count - 1 }] })) := by
  have hfind : dirObjidCache hmp dip = some ocp := dirObjidCache_of_filter hmp dip ocp hfil
  unfold hammer_alloc_objid
  rw [obtain_found cfg hmp dip ocp hfind]
  dsimp only
  rw [hfind]

/-- After consuming one id from the unique bound entry, the directory's
filtered pool view advances with it (or empties on depletion). -/
theorem filter_after_consume (hmp : HammerMount) (dip : Nat) (ocp e2 : HammerObjidCache)
    (hfil : hmp.objid_cache_list.filter (fun o => o.dip == some dip) = [ocp])
    (hd : e2.dip = some dip) :
    (hmp.objid_cache_list.eraseP (fun o => o.dip == some dip) ++ [e2]).filter
      (fun o => o.dip == some dip) = [e2] := by
  rw [List.filter_append, filter_eraseP, hfil]
  simp [hd]


/-- Depletion: consuming the last id of a directory's entry removes the
entry, decrements the pool count and leaves the directory unbound; with
the pool count matching the list length and within capacity, the pool
drops strictly below capacity. -/
theorem objid_depletion_step (cfg : ObjidCfg) (hmp : HammerMount) (dip : Nat)
    (ocp : HammerObjidCache)
    (hfil : hmp.objid_cache_list.filter (fun o => o.dip == some dip) = [ocp])
    (hc1 : ocp.count = 1)
    (hcnt : hmp.objid_cache_count = hmp.objid_cache_list.length)
    (hsz : hmp.objid_cache_count ≤ cfg.size) :
    hammer_alloc_objid cfg hmp dip =
      some (ocp.next_tid, { hmp with objid_cache_list := hmp.objid_cache_list.eraseP (fun o => o.dip == some dip), objid_cache_count := hmp.objid_cache_count - 1 }) ∧
    dirObjidCache { hmp with objid_cache_list := hmp.objid_cache_list.eraseP (fun o => o.dip == some dip), objid_cache_count := hmp.objid_cache_count - 1 } dip = none ∧
    hmp.objid_cache_count - 1 < cfg.size := by
  have halloc := alloc_objid_found cfg hmp dip ocp hfil
  rw [if_pos (by omega : ocp.count - 1 = 0)] at halloc
  have hmem : ocp ∈ hmp.objid_cache_list := by
    have h1 : ocp ∈ hmp.objid_cache_list.filter (fun o => o.dip == some dip) := by
      rw [hfil]
      exact List.mem_cons_self _ _
    exact (List.mem_filter.mp h1).1
  have hlen : 1 ≤ hmp.objid_cache_list.length := by
    cases hl : hmp.objid_cache_list with
    | nil => rw [hl] at hmem; simp at hmem
    | cons a t => simp
  refine ⟨halloc, ?_, by omega⟩
  show (hmp.objid_cache_list.eraseP (fun o => o.dip == some dip)).find?
    (fun o => o.dip == some dip) = none
  rw [find?_eq_head?_filter, filter_eraseP, hfil]
  rfl

/-- When the directory is unbound and the pool is below capacity, the
returned object id is the base of a fresh bulk TID reservation (a new
entry, not a recycled one). -/
theorem alloc_objid_fresh_branch (cfg : ObjidCfg) (hmp : HammerMount) (dip : Nat)
    (t2 : Nat) (h3 : HammerMount) (hfind : dirObjidCache hmp dip = none)
    (hcap : hmp.objid_cache_count < cfg.size)
    (h : hammer_alloc_objid cfg hmp dip = some (t2, h3)) :
    ∃ hx, hammer_alloc_tid hmp cfg.count_bulk = some (t2, hx) := by
  unfold hammer_alloc_objid at h
  match hobt : obtainObjidCache cfg hmp dip with
  | none => rw [hobt] at h; simp at h
  | some hmp1 =>
    rw [hobt] at h
    dsimp only at h
    unfold obtainObjidCache at hobt
    rw [hfind] at hobt
    dsimp only at hobt
    rw [if_pos hcap] at hobt
    match halloc : hammer_alloc_tid hmp cfg.count_bulk with
    | none => rw [halloc] at hobt; simp at hobt
    | some (base, hx) =>
      rw [halloc] at hobt
      dsimp only at hobt
      obtain ⟨hmast, hlist, hcnt2⟩ := alloc_tid_preserves hmp cfg.count_bulk base hx halloc
      have hfind2 : dirObjidCache hx dip = none := by
        rw [dirObjidCache_eq_of_list hx hmp dip hlist]
        exact hfind
      rw [if_pos hfind2] at hobt
      injection hobt with hobt2
      subst hobt2
      have hfind3 : dirObjidCache { hx with objid_cache_list := { next_tid := base, count := cfg.count_bulk, dip := some dip } :: hx.objid_cache_list, objid_cache_count := hx.objid_cache_count + 1 } dip = some { next_tid := base, count := cfg.count_bulk, dip := some dip } := by
        unfold dirObjidCache
        exact List.find?_cons_of_pos _ (by simp)
      rw [hfind3] at h
      dsimp only at h
      split at h
      · injection h with hpair
        injection hpair with ht _
        refine ⟨hx, ?_⟩
        rw [← ht]
      · injection h with hpair
        injection hpair with ht _
        refine ⟨hx, ?_⟩
        rw [← ht]

/-- Single-master consecutive ids: `k` successive allocations for a
directory whose unique bound entry holds at least `k` remaining ids
return exactly the consecutive ids starting at the entry's `next_tid`. -/
theorem objid_bulk_consecutive (cfg : ObjidCfg) :
    ∀ (k : Nat) (hmp : HammerMount) (dip : Nat) (ocp : HammerObjidCache),
      hmp.master_id < 0 →
      hmp.objid_cache_list.filter (fun o => o.dip == some dip) = [ocp] →
      k ≤ ocp.count →
      ∃ h3, runOid cfg hmp (List.replicate k (OidEvent.alloc dip)) =
        some (List.range' ocp.next_tid k, h3) := by
  intro k
  induction k with
  | zero =>
    intro hmp dip ocp _ _ _
    exact ⟨hmp, rfl⟩
  | succ k ih =>
    intro hmp dip ocp hm hfil hk
    have halloc := alloc_objid_found cfg hmp dip ocp hfil
    have hstep : ocpStep hmp = 1 := by
      unfold ocpStep
      rw [if_pos hm]
    rw [hstep] at halloc
    have hocpd : ocp.dip = some dip := by
      have h1 : ocp ∈ hmp.objid_cache_list.filter (fun o => o.dip == some dip) := by
        rw [hfil]
        exact List.mem_cons_self _ _
      have h2 := (List.mem_filter.mp h1).2
      simpa using h2
    by_cases hdep : ocp.count - 1 = 0
    · have hk0 : k = 0 := by omega
      subst hk0
      rw [if_pos hdep] at halloc
      refine ⟨{ hmp with objid_cache_list := hmp.objid_cache_list.eraseP (fun o => o.dip == some dip), objid_cache_count := hmp.objid_cache_count - 1 }, ?_⟩
      rw [List.replicate_succ]
      simp only [runOid]
      rw [halloc]
      rfl
    · rw [if_neg hdep] at halloc
      have hfil2 : ({ hmp with objid_cache_list := hmp.objid_cache_list.eraseP (fun o => o.dip == some dip) ++ [({ next_tid := ocp.next_tid + 1, count := ocp.count - 1, dip := ocp.dip } : HammerObjidCache)] } : HammerMount).objid_cache_list.filter (fun o => o.dip == some dip) = [({ next_tid := ocp.next_tid + 1, count := ocp.count - 1, dip := ocp.dip } : HammerObjidCache)] := by
        show (hmp.objid_cache_list.eraseP (fun o => o.dip == some dip) ++ [({ next_tid := ocp.next_tid + 1, count := ocp.count - 1, dip := ocp.dip } : HammerObjidCache)]).filter (fun o => o.dip == some dip) = [({ next_tid := ocp.next_tid + 1, count := ocp.count - 1, dip := ocp.dip } : HammerObjidCache)]
        exact filter_after_consume hmp dip ocp _ hfil hocpd
      obtain ⟨h3, hrun⟩ := ih { hmp with objid_cache_list := hmp.objid_cache_list.eraseP (fun o => o.dip == some dip) ++ [({ next_tid := ocp.next_tid + 1, count := ocp.count - 1, dip := ocp.dip } : HammerObjidCache)] } dip ({ next_tid := ocp.next_tid + 1, count := ocp.count - 1, dip := ocp.dip } : HammerObjidCache) hm hfil2 (by simpa using Nat.le_of_lt_succ (by omega))
      dsimp only at hrun
      refine ⟨h3, ?_⟩
      rw [List.replicate_succ]
      simp only [runOid]
      rw [halloc]
      dsimp only
      rw [hrun]
      rw [show List.range' ocp.next_tid (k + 1) = ocp.next_tid :: List.range' (ocp.next_tid + 1) k from List.range'_succ ocp.next_tid k 1]


/-- The entry-obtaining phase keeps the pool counter equal to the pool
list length. -/
theorem obtain_count (cfg : ObjidCfg) (hmp : HammerMount) (dip : Nat) (hmp1 : HammerMount)
    (hcnt : hmp.objid_cache_count = hmp.objid_cache_list.length)
    (h : obtainObjidCache cfg hmp dip = some hmp1) :
    hmp1.objid_cache_count = hmp1.objid_cache_list.length := by
  unfold obtainObjidCache at h
  cases hfind : dirObjidCache hmp dip with
  | some o =>
    rw [hfind] at h
    dsimp only at h
    injection h with h2
    subst h2
    exact hcnt
  | none =>
    rw [hfind] at h
    dsimp only at h
    by_cases hcap : hmp.objid_cache_count < cfg.size
    · rw [if_pos hcap] at h
      match halloc : hammer_alloc_tid hmp cfg.count_bulk with
      | none => rw [halloc] at h; simp at h
      | some (base, hx) =>
        rw [halloc] at h
        dsimp only at h
        obtain ⟨_, hlist, hcnt2⟩ := alloc_tid_preserves hmp cfg.count_bulk base hx halloc
        split at h <;>
        · injection h with h2
          subst h2
          show hx.objid_cache_count + 1 = _ + 1
          rw [hcnt2, hlist]
          exact congrArg (fun n => n + 1) hcnt
    · rw [if_neg hcap] at h
      match hpool : hmp.objid_cache_list with
      | [] => rw [hpool] at h; simp at h
      | ocp :: rest =>
        rw [hpool] at h
        dsimp only at h
        injection h with h2
        subst h2
        show hmp.objid_cache_count = rest.length + 1
        rw [hcnt, hpool]
        rfl

/-- Claim C10: `objid_cache_count` equals the pool list length, the
invariant is preserved by `hammer_alloc_objid` and by
`hammer_clear_objid`, but `hammer_destroy_objid_cache` frees every
entry and clears every directory's cache pointer without decrementing
`objid_cache_count`: after it the list is empty while the counter still
holds its pre-shutdown value. -/
theorem objid_count_vs_list :
    (∀ (cfg : ObjidCfg) (hmp : HammerMount) (dip t : Nat) (h2 : HammerMount),
      hmp.objid_cache_count = hmp.objid_cache_list.length →
      hammer_alloc_objid cfg hmp dip = some (t, h2) →
      h2.objid_cache_count = h2.objid_cache_list.length) ∧
    (∀ (hmp : HammerMount) (dip : Nat),
      hmp.objid_cache_count = hmp.objid_cache_list.length →
      (hammer_clear_objid hmp dip).objid_cache_count =
        (hammer_clear_objid hmp dip).objid_cache_list.length) ∧
    (∀ hmp : HammerMount,
      (hammer_destroy_objid_cache hmp).objid_cache_list = [] ∧
      (hammer_destroy_objid_cache hmp).objid_cache_count = hmp.objid_cache_count ∧
      ∀ d : Nat, dirObjidCache (hammer_destroy_objid_cache hmp) d = none) := by
  refine ⟨?_, ?_, ?_⟩
  · intro cfg hmp dip t h2 hcnt h
    unfold hammer_alloc_objid at h
    match hobt : obtainObjidCache cfg hmp dip with
    | none => rw [hobt] at h; simp at h
    | some hmp1 =>
      rw [hobt] at h
      dsimp only at h
      have hcnt1 := obtain_count cfg hmp dip hmp1 hcnt hobt
      match hfind : dirObjidCache hmp1 dip with
      | none => rw [hfind] at h; simp at h
      | some ocp =>
        rw [hfind] at h
        dsimp only at h
        have hfind2 : hmp1.objid_cache_list.find? (fun o => o.dip == some dip) = some ocp :=
          hfind
        obtain ⟨l1, l2, hdecomp, herase, _⟩ := find?_eraseP_decomp _ _ _ hfind2
        have hlen : hmp1.objid_cache_list.length = l1.length + l2.length + 1 := by
          rw [hdecomp]
          simp
          omega
        rw [herase] at h
        split at h
        · injection h with hpair
          injection hpair with _ hh2
          subst hh2
          show hmp1.objid_cache_count - 1 = (l1 ++ l2).length
          rw [List.length_append]
          omega
        · injection h with hpair
          injection hpair with _ hh2
          subst hh2
          show hmp1.objid_cache_count = ((l1 ++ l2) ++ [_]).length
          rw [List.length_append, List.length_append]
          simp only [List.length_singleton]
          omega
  · intro hmp dip hcnt
    unfold hammer_clear_objid
    cases hfind : dirObjidCache hmp dip with
    | none => exact hcnt
    | some ocp =>
      dsimp only
      have hfind2 : hmp.objid_cache_list.find? (fun o => o.dip == some dip) = some ocp :=
        hfind
      obtain ⟨l1, l2, hdecomp, herase, _⟩ := find?_eraseP_decomp _ _ _ hfind2
      rw [herase]
      show hmp.objid_cache_count = (l1 ++ l2).length + 1
      rw [hcnt, hdecomp]
      simp
      omega
  · intro hmp
    exact ⟨rfl, rfl, fun d => rfl⟩

/-- Claim C10 witness: on a one-entry pool the counter matches the list
length through an allocation and a release, while shutdown empties the
list and leaves the counter at its old value 1, with the directory
pointer cleared. -/
theorem objid_count_vs_list_witness :
    ((1 : Nat) = (1 : Nat)) ∧
    ((mkMount (-1) 5 [{ next_tid := 2, count := 3, dip := none }] 1).objid_cache_count =
      (mkMount (-1) 5 [{ next_tid := 2, count := 3, dip := none }] 1).objid_cache_list.length) ∧
    (hammer_destroy_objid_cache (mkMount (-1) 5 [{ next_tid := 2, count := 3, dip := some 0 }] 1)).objid_cache_list = [] ∧
    (hammer_destroy_objid_cache (mkMount (-1) 5 [{ next_tid := 2, count := 3, dip := some 0 }] 1)).objid_cache_count = 1 ∧
    dirObjidCache (hammer_destroy_objid_cache (mkMount (-1) 5 [{ next_tid := 2, count := 3, dip := some 0 }] 1)) 0 = none := by
  refine ⟨?_, ?_, ?_, ?_, ?_⟩
  · have h := objid_count_vs_list.1 { size := 1, count_bulk := 4 }
      (mkMount (-1) 0 [] 0) 0 1 (mkMount (-1) 5 [{ next_tid := 2, count := 3, dip := some 0 }] 1)
      (by decide) (by decide)
    exact h
  · have h := objid_count_vs_list.2.1
      (mkMount (-1) 5 [{ next_tid := 2, count := 3, dip := some 0 }] 1) 0 (by decide)
    exact h
  · exact (objid_count_vs_list.2.2 (mkMount (-1) 5 [{ next_tid := 2, count := 3, dip := some 0 }] 1)).1
  · exact (objid_count_vs_list.2.2 (mkMount (-1) 5 [{ next_tid := 2, count := 3, dip := some 0 }] 1)).2.1
  · exact (objid_count_vs_list.2.2 (mkMount (-1) 5 [{ next_tid := 2, count := 3, dip := some 0 }] 1)).2.2 0


/-- Claim C5: orientation of the pool ordering.  In the source the two
ends of `objid_cache_list` are its head (`TAILQ_FIRST`, where
`TAILQ_INSERT_HEAD` inserts) and its tail (`TAILQ_INSERT_TAIL`).  The
eviction under capacity pressure takes the entry at the head; an entry
that has just been created (and served its first id) ends the call at
the opposite end, the tail, which is therefore the most-recently-used
end; and `hammer_clear_objid` moves a released, partially consumed
entry - unbound - to the head, the same end eviction takes from, making
it the next eviction candidate. -/
theorem pool_lru_discipline :
    (∀ (cfg : ObjidCfg) (hmp : HammerMount) (dip t : Nat) (h2 : HammerMount),
      dirObjidCache hmp dip = none → ¬ hmp.objid_cache_count < cfg.size →
      hammer_alloc_objid cfg hmp dip = some (t, h2) →
      ∃ e rest, hmp.objid_cache_list = e :: rest ∧ t = e.next_tid) ∧
    (∀ (hmp : HammerMount) (dip : Nat) (ocp : HammerObjidCache),
      dirObjidCache hmp dip = some ocp →
      (hammer_clear_objid hmp dip).objid_cache_list =
        { ocp with dip := none } ::
          hmp.objid_cache_list.eraseP (fun o => o.dip == some dip)) ∧
    (∀ (cfg : ObjidCfg) (hmp : HammerMount) (dip t : Nat) (h2 : HammerMount),
      dirObjidCache hmp dip = none → hmp.objid_cache_count < cfg.size →
      2 ≤ cfg.count_bulk →
      hammer_alloc_objid cfg hmp dip = some (t, h2) →
      h2.objid_cache_list.getLast? =
        some { next_tid := t + ocpStep hmp, count := cfg.count_bulk - 1,
               dip := some dip }) := by
  refine ⟨?_, ?_, ?_⟩
  · intro cfg hmp dip t h2 hfind hcap h
    unfold hammer_alloc_objid at h
    match hobt : obtainObjidCache cfg hmp dip with
    | none => rw [hobt] at h; simp at h
    | some hmp1 =>
      rw [hobt] at h
      dsimp only at h
      unfold obtainObjidCache at hobt
      rw [hfind] at hobt
      dsimp only at hobt
      rw [if_neg hcap] at hobt
      match hpool : hmp.objid_cache_list with
      | [] => rw [hpool] at hobt; simp at hobt
      | e :: rest =>
        rw [hpool] at hobt
        dsimp only at hobt
        injection hobt with hobt2
        subst hobt2
        refine ⟨e, rest, rfl, ?_⟩
        have hfind3 : dirObjidCache { hmp with objid_cache_list := { e with dip := some dip } :: rest } dip = some { e with dip := some dip } := by
          unfold dirObjidCache
          exact List.find?_cons_of_pos _ (by simp)
        rw [hfind3] at h
        dsimp only at h
        split at h
        · injection h with hpair
          injection hpair with ht _
          rw [← ht]
        · injection h with hpair
          injection hpair with ht _
          rw [← ht]
  · intro hmp dip ocp hfind
    unfold hammer_clear_objid
    rw [hfind]
  · intro cfg hmp dip t h2 hfind hcap hbulk h
    unfold hammer_alloc_objid at h
    match hobt : obtainObjidCache cfg hmp dip with
    | none => rw [hobt] at h; simp at h
    | some hmp1 =>
      rw [hobt] at h
      dsimp only at h
      unfold obtainObjidCache at hobt
      rw [hfind] at hobt
      dsimp only at hobt
      rw [if_pos hcap] at hobt
      match halloc : hammer_alloc_tid hmp cfg.count_bulk with
      | none => rw [halloc] at hobt; simp at hobt
      | some (base, hx) =>
        rw [halloc] at hobt
        dsimp only at hobt
        obtain ⟨hmast, hlist, _⟩ := alloc_tid_preserves hmp cfg.count_bulk base hx halloc
        have hfind2 : dirObjidCache hx dip = none := by
          rw [dirObjidCache_eq_of_list hx hmp dip hlist]
          exact hfind
        rw [if_pos hfind2] at hobt
        injection hobt with hobt2
        subst hobt2
        have hfind3 : dirObjidCache { hx with objid_cache_list := { next_tid := base, count := cfg.count_bulk, dip := some dip } :: hx.objid_cache_list, objid_cache_count := hx.objid_cache_count + 1 } dip = some { next_tid := base, count := cfg.count_bulk, dip := some dip } := by
          unfold dirObjidCache
          exact List.find?_cons_of_pos _ (by simp)
        rw [hfind3] at h
        dsimp only at h
        have herase2 : List.eraseP (fun o => o.dip == some dip) ({ next_tid := base, count := cfg.count_bulk, dip := some dip } :: hx.objid_cache_list) = hx.objid_cache_list :=
          List.eraseP_cons_of_pos (by simp)
        rw [herase2] at h
        have hcond : ¬ (cfg.count_bulk - 1 = 0) := by omega
        rw [if_neg hcond] at h
        injection h with hpair
        injection hpair with ht hh2
        subst hh2
        have hstep2 : ocpStep { hx with objid_cache_list := { next_tid := base, count := cfg.count_bulk, dip := some dip } :: hx.objid_cache_list, objid_cache_count := hx.objid_cache_count + 1 } = ocpStep hmp := by
          refine ocpStep_eq_of_master _ _ ?_
          exact hmast
        subst ht
        rw [hstep2]
        show (hx.objid_cache_list ++ [({ next_tid := base + ocpStep hmp, count := cfg.count_bulk - 1, dip := some dip } : HammerObjidCache)]).getLast? = some ({ next_tid := base + ocpStep hmp, count := cfg.count_bulk - 1, dip := some dip } : HammerObjidCache)
        exact List.getLast?_concat _


/-- Claim C5 witness: with capacity 1, a full pool evicts its head
entry, whose range the new directory continues; a released entry moves
to the head; and with capacity 2 a freshly created entry ends the
allocating call at the tail, behind the pre-existing entry. -/
theorem pool_lru_discipline_witness :
    (∃ e rest, ([{ next_tid := 3, count := 2, dip := some 0 }] :
        List HammerObjidCache) = e :: rest ∧ (3 : Nat) = e.next_tid) ∧
    ((hammer_clear_objid (mkMount (-1) 5 [{ next_tid := 2, count := 3, dip := some 0 }] 1) 0).objid_cache_list =
      [{ next_tid := 2, count := 3, dip := none }]) ∧
    ((mkMount (-1) 10 [{ next_tid := 2, count := 3, dip := some 7 }, { next_tid := 7, count := 3, dip := some 0 }] 2).objid_cache_list.getLast? =
      some { next_tid := 7, count := 3, dip := some 0 }) := by
  refine ⟨?_, ?_, ?_⟩
  · exact pool_lru_discipline.1 { size := 1, count_bulk := 4 }
      (mkMount (-1) 5 [{ next_tid := 3, count := 2, dip := some 0 }] 1) 1 3
      (mkMount (-1) 5 [{ next_tid := 4, count := 1, dip := some 1 }] 1)
      (by decide) (by decide) (by decide)
  · exact pool_lru_discipline.2.1
      (mkMount (-1) 5 [{ next_tid := 2, count := 3, dip := some 0 }] 1) 0
      { next_tid := 2, count := 3, dip := some 0 } (by decide)
  · exact pool_lru_discipline.2.2 { size := 2, count_bulk := 4 }
      (mkMount (-1) 5 [{ next_tid := 2, count := 3, dip := some 7 }] 1) 0 6
      (mkMount (-1) 10 [{ next_tid := 2, count := 3, dip := some 7 }, { next_tid := 7, count := 3, dip := some 0 }] 2)
      (by decide) (by decide) (by decide) (by decide)

/-- Claim C9: consuming the last of the BULK ids of a directory's cache
entry destroys the entry (erased from the pool, pool counter
decremented) and clears the directory's cache pointer, leaving the pool
strictly below capacity, so that the directory's next request takes the
creation branch: its id is the base of a fresh bulk TID reservation.
In single-master mode the ids drawn from one entry are consecutive:
`k` draws (up to the entry's full BULK count) return exactly
`next_tid, next_tid + 1, ..., next_tid + k - 1`. -/
theorem objid_entry_exhaustion (cfg : ObjidCfg) :
    (∀ (hmp : HammerMount) (dip : Nat) (ocp : HammerObjidCache),
      hmp.objid_cache_list.filter (fun o => o.dip == some dip) = [ocp] →
      ocp.count = 1 →
      hmp.objid_cache_count = hmp.objid_cache_list.length →
      hmp.objid_cache_count ≤ cfg.size →
      hammer_alloc_objid cfg hmp dip =
        some (ocp.next_tid, { hmp with objid_cache_list := hmp.objid_cache_list.eraseP (fun o => o.dip == some dip), objid_cache_count := hmp.objid_cache_count - 1 }) ∧
      dirObjidCache { hmp with objid_cache_list := hmp.objid_cache_list.eraseP (fun o => o.dip == some dip), objid_cache_count := hmp.objid_cache_count - 1 } dip = none ∧
      hmp.objid_cache_count - 1 < cfg.size) ∧
    (∀ (hmp : HammerMount) (dip t2 : Nat) (h3 : HammerMount),
      dirObjidCache hmp dip = none → hmp.objid_cache_count < cfg.size →
      hammer_alloc_objid cfg hmp dip = some (t2, h3) →
      ∃ hx, hammer_alloc_tid hmp cfg.count_bulk = some (t2, hx)) ∧
    (∀ (k : Nat) (hmp : HammerMount) (dip : Nat) (ocp : HammerObjidCache),
      hmp.master_id < 0 →
      hmp.objid_cache_list.filter (fun o => o.dip == some dip) = [ocp] →
      k ≤ ocp.count →
      ∃ h3, runOid cfg hmp (List.replicate k (OidEvent.alloc dip)) =
        some (List.range' ocp.next_tid k, h3)) := by
  exact ⟨fun hmp dip ocp h1 h2 h3 h4 => objid_depletion_step cfg hmp dip ocp h1 h2 h3 h4,
    fun hmp dip t2 h3 a b c => alloc_objid_fresh_branch cfg hmp dip t2 h3 a b c,
    fun k hmp dip ocp a b c => objid_bulk_consecutive cfg k hmp dip ocp a b c⟩

/-- Claim C9 witness, at BULK 4 and capacity 1: draining the last id of
directory 1's entry destroys it and unbinds the directory with the pool
below capacity; an unbound directory on a non-full pool gets the base
of a fresh TID reservation; and four draws from a fresh entry yield the
four consecutive ids 1, 2, 3, 4. -/
theorem objid_entry_exhaustion_witness :
    (hammer_alloc_objid { size := 1, count_bulk := 4 }
        (mkMount (-1) 5 [{ next_tid := 4, count := 1, dip := some 1 }] 1) 1 =
        some (4, mkMount (-1) 5 [] 0) ∧
      dirObjidCache (mkMount (-1) 5 [] 0) 1 = none ∧ (0 : Nat) < 1) ∧
    (∃ hx, hammer_alloc_tid (mkMount (-1) 0 [] 0) 4 = some (1, hx)) ∧
    (∃ h3, runOid { size := 1, count_bulk := 4 }
        (mkMount (-1) 5 [{ next_tid := 1, count := 4, dip := some 0 }] 1)
        (List.replicate 4 (OidEvent.alloc 0)) = some ([1, 2, 3, 4], h3)) := by
  refine ⟨?_, ?_, ?_⟩
  · exact (objid_entry_exhaustion { size := 1, count_bulk := 4 }).1
      (mkMount (-1) 5 [{ next_tid := 4, count := 1, dip := some 1 }] 1) 1
      { next_tid := 4, count := 1, dip := some 1 }
      (by decide) (by decide) (by decide) (by decide)
  · exact (objid_entry_exhaustion { size := 1, count_bulk := 4 }).2.1
      (mkMount (-1) 0 [] 0) 0 1
      (mkMount (-1) 5 [{ next_tid := 2, count := 3, dip := some 0 }] 1)
      (by decide) (by decide) (by decide)
  · exact (objid_entry_exhaustion { size := 1, count_bulk := 4 }).2.2 4
      (mkMount (-1) 5 [{ next_tid := 1, count := 4, dip := some 0 }] 1) 0
      { next_tid := 1, count := 4, dip := some 0 }
      (by decide) (by decide) (by decide)

end HammerTrans
